import Mathlib

/-!
Shallow embedding of the AutoThreshold estimator core
(`Source/AutoThreshold.cpp`, `Source/AutoThreshold.h`) and verification of
the specification's claims about it.

Modelling conventions:
* An RGBA pixel buffer is a byte accessor `buf : ℕ → ℕ`; `buf n` is the n-th
  byte of the row-major RGBA8 buffer (4 bytes per pixel, no padding).
  Where a claim needs the fact that bytes are 8-bit, it carries the
  hypothesis `∀ n, buf n ≤ 255`.
* C `int` values that stay nonnegative are modelled as `ℕ`; absolute
  differences of `int` expressions go through `ℤ` and `Int.natAbs`.
* The `double` accumulators of `gradient` only ever hold sums of small
  naturals (each addend is below 2^21), so they are exactly representable
  and are modelled as `ℕ`.  The C cast `(int)(sum_exy_fxy / sum_exy)` of a
  nonnegative exact quotient is truncation toward zero, i.e. `Nat.div`.
* `float`/`double` results of the final divisions are modelled as `ℚ`.
-/

namespace AutoThreshold

/-- Sum of the three bytes at offsets `off`, `off+1`, `off+2`: the R+G+B sum
of the pixel whose R byte sits at `off`.  Mirrors the repeated three-byte
accumulation pattern in `gradient` and `histo`. -/
def pix3 (buf : ℕ → ℕ) (off : ℕ) : ℕ :=
  buf off + buf (off + 1) + buf (off + 2)

/-- R+G+B sum of the pixel at column `x`, row `y` of a `W`-pixel-wide buffer,
expressed with 2D indexing (the spec's view of the pointer arithmetic). -/
def pixSum (buf : ℕ → ℕ) (W x y : ℕ) : ℕ :=
  pix3 buf ((y * W + x) * 4)

/-- Index set of the sampling loops `for(i=4; i<limit-4; i+=4)` in
`gradient` (AutoThreshold.cpp:686 and :690): every fourth index starting
at 4 and stopping 4 short of `limit`. -/
def sampleIdx (limit : ℕ) : List ℕ :=
  (List.range limit).filter (fun i => decide (4 ≤ i ∧ i % 4 = 0 ∧ i + 4 < limit))

/-- Per-sample edge magnitude of `gradient` (AutoThreshold.cpp:702-735),
transcribed from the pointer walk: `base` is the byte offset of the sampled
pixel, `left`/`right` are the R+G+B sums of the pixels one column away
(`lp-4`, `lp+4` are byte offsets), and the code's `top` accumulates BOTH the
pixel one row above (`lp-Width*4`) and one row below (`lp+Width*4`) while
`bot` stays 0 (lines 726-730 add the bottom bytes to `top`). -/
def gradExy (buf : ℕ → ℕ) (W i j : ℕ) : ℕ :=
  let base := i * (W * 4) + j * 4
  let left := pix3 buf (base - 4)
  let right := pix3 buf (base + 4)
  let top := pix3 buf (base - W * 4) + pix3 buf (base + W * 4)
  let bot : ℕ := 0
  max (((left : ℤ) - (right : ℤ)).natAbs) (((top : ℤ) - (bot : ℤ)).natAbs)

/-- R+G+B sum of the sampled pixel itself (`mid` in AutoThreshold.cpp:709-712). -/
def gradMid (buf : ℕ → ℕ) (W i j : ℕ) : ℕ :=
  pix3 buf (i * (W * 4) + j * 4)

/-- The two accumulators of `gradient` (AutoThreshold.cpp:736-737):
`(sum_exy, sum_exy_fxy)` after the full double loop. -/
def gradientSums (buf : ℕ → ℕ) (W H : ℕ) : ℕ × ℕ :=
  (sampleIdx H).foldl
    (fun acc i =>
      (sampleIdx W).foldl
        (fun acc2 j =>
          (acc2.1 + gradExy buf W i j, acc2.2 + gradExy buf W i j * gradMid buf W i j))
        acc)
    (0, 0)

/-- The integer `t = (int)(sum_exy_fxy/(sum_exy + 1.0))` of
AutoThreshold.cpp:744-746 (truncated quotient of nonnegative exact values). -/
def gradientT (buf : ℕ → ℕ) (W H : ℕ) : ℕ :=
  (gradientSums buf W H).2 / ((gradientSums buf W H).1 + 1)

/-- `AutoThreshold::gradient` (AutoThreshold.cpp:665-750): the returned
threshold `(float)t/(3*256)`. -/
def gradient (buf : ℕ → ℕ) (W H : ℕ) : ℚ :=
  (gradientT buf W H : ℚ) / (3 * 256)

/-! ### Claim C1's reading of the gradient estimator

Claim C1 (from spec §4.2) describes the per-sample edge magnitude with
neighbours 4 PIXELS away, a clean `|top - bot|` difference, and an exact
(untruncated) final division.  The following definitions formalize the claim's
words, to be compared with the code-derived `gradient` above. -/

/-- Edge magnitude as claim C1 words it: `left`/`right`/`top`/`bot` are the
R+G+B sums of the pixels 4 columns/rows away from the sampled pixel. -/
def exySpecC1 (buf : ℕ → ℕ) (W i j : ℕ) : ℕ :=
  let left := pixSum buf W (j - 4) i
  let right := pixSum buf W (j + 4) i
  let top := pixSum buf W j (i - 4)
  let bot := pixSum buf W j (i + 4)
  max (((left : ℤ) - (right : ℤ)).natAbs) (((top : ℤ) - (bot : ℤ)).natAbs)

/-- Claim C1's `sum_exy`: sum of `exySpecC1` over the sampled pixels. -/
def sumExySpecC1 (buf : ℕ → ℕ) (W H : ℕ) : ℕ :=
  ((sampleIdx H).map (fun i => ((sampleIdx W).map (fun j => exySpecC1 buf W i j)).sum)).sum

/-- Claim C1's `sum_exy_fxy`: sum of `exySpecC1 * mid` over the sampled pixels. -/
def sumExyMidSpecC1 (buf : ℕ → ℕ) (W H : ℕ) : ℕ :=
  ((sampleIdx H).map
    (fun i => ((sampleIdx W).map (fun j => exySpecC1 buf W i j * pixSum buf W j i)).sum)).sum

/-- The value claim C1 asserts `gradient` returns:
`(sum_exy_fxy / (sum_exy + 1.0)) / (3*256)` exactly, with no truncation. -/
def gradientSpecC1 (buf : ℕ → ℕ) (W H : ℕ) : ℚ :=
  ((sumExyMidSpecC1 buf W H : ℚ) / ((sumExySpecC1 buf W H : ℚ) + 1)) / (3 * 256)

/-! ### The amended (code-accurate) per-sample formula, with 2D indexing -/

/-- The edge magnitude the code actually computes, written with 2D pixel
indexing: neighbours are ONE pixel away (`lp±4` bytes, `lp±Width*4` bytes),
and the bottom neighbour's sum is folded into `top` while `bot` stays 0. -/
def exyAmend (buf : ℕ → ℕ) (W i j : ℕ) : ℕ :=
  let left := pixSum buf W (j - 1) i
  let right := pixSum buf W (j + 1) i
  let top := pixSum buf W j (i - 1) + pixSum buf W j (i + 1)
  let bot : ℕ := 0
  max (((left : ℤ) - (right : ℤ)).natAbs) (((top : ℤ) - (bot : ℤ)).natAbs)

/-- `sum_exy` of the code, written as a sum over the sampled pixels. -/
def sumExyAmend (buf : ℕ → ℕ) (W H : ℕ) : ℕ :=
  ((sampleIdx H).map (fun i => ((sampleIdx W).map (fun j => exyAmend buf W i j)).sum)).sum

/-- `sum_exy_fxy` of the code, written as a sum over the sampled pixels. -/
def sumExyMidAmend (buf : ℕ → ℕ) (W H : ℕ) : ℕ :=
  ((sampleIdx H).map
    (fun i => ((sampleIdx W).map (fun j => exyAmend buf W i j * pixSum buf W j i)).sum)).sum

/-! ### Concrete buffers used by the claims -/

/-- Uniform RGBA buffer: every pixel is `(g, g, g, 255)`. -/
def uniformBuf (g : ℕ) : ℕ → ℕ := fun n => if n % 4 = 3 then 255 else g

/-- 9×9 counterexample buffer for claim C1: all pixels are `(0,0,0,255)`
except pixels 31 = (row 3, col 4), 40 = (row 4, col 4) and 49 = (row 5,
col 4), which are `(100,100,100,255)`. -/
def cexBuf : ℕ → ℕ := fun n =>
  if n % 4 = 3 then 255
  else if n / 4 = 31 ∨ n / 4 = 40 ∨ n / 4 = 49 then 100
  else 0

/-- 256×256 buffer whose left half (columns 0-127) is `(0,0,0,255)` and
whose right half (columns 128-255) is `(255,255,255,255)`. -/
def bwBuf : ℕ → ℕ := fun n =>
  if n % 4 = 3 then 255
  else if (n / 4) % 256 < 128 then 0
  else 255

/-! ### Histogram builder (`AutoThreshold::histo`, AutoThreshold.cpp:756-775) -/

/-- Gray level of the pixel at row `i`, column `j`: the code reads the three
R,G,B bytes, sums them into `k`, and bins at `k/3` (AutoThreshold.cpp:769-772). -/
def grayOf (buf : ℕ → ℕ) (W i j : ℕ) : ℕ :=
  pix3 buf ((i * W + j) * 4) / 3

/-- One `histogram[k]++` on the `unsigned short` histogram
(AutoThreshold.h:79): 16-bit counters wrap modulo 65536. -/
def bump (h : ℕ → ℕ) (g : ℕ) : ℕ → ℕ :=
  fun k => if k = g then (h k + 1) % 65536 else h k

/-- `AutoThreshold::histo` (AutoThreshold.cpp:756-775): zero the table, then
for every pixel in row-major order increment the bin of its gray level. -/
def histo (buf : ℕ → ℕ) (W H : ℕ) : ℕ → ℕ :=
  (List.range H).foldl
    (fun h i => (List.range W).foldl (fun h2 j => bump h2 (grayOf buf W i j)) h)
    (fun _ => 0)

/-- Number of pixels of gray level `k` in row `i` (no wrapping): the true
count the 16-bit counter of `histo` approximates. -/
def rowCount (buf : ℕ → ℕ) (W i k : ℕ) : ℕ :=
  (List.range W).countP (fun j => decide (grayOf buf W i j = k))

/-- True (unwrapped) total count of pixels of gray level `k`. -/
def trueCount (buf : ℕ → ℕ) (W H k : ℕ) : ℕ :=
  ((List.range H).map (fun i => rowCount buf W i k)).sum

/-! ### Entropy-split estimator (`AutoThreshold::entropySplit`,
AutoThreshold.cpp:785-863).  The C code calls libm's `log`; the embedding
abstracts it as a parameter `logf : ℚ → ℚ`, which the claims quantify over. -/

/-- `sum` of the floating-point histogram (AutoThreshold.cpp:806-808). -/
def entSum (histogram : ℕ → ℕ) : ℚ :=
  ∑ i in Finset.range 256, (histogram i : ℚ)

/-- `normalizedHist[i] = hist[i] / sum` (AutoThreshold.cpp:814-815). -/
def entNh (histogram : ℕ → ℕ) (i : ℕ) : ℚ :=
  (histogram i : ℚ) / entSum histogram

/-- Cumulative distribution `pT` (AutoThreshold.cpp:817-819). -/
def entPT (histogram : ℕ → ℕ) : ℕ → ℚ
  | 0 => entNh histogram 0
  | i + 1 => entPT histogram i + entNh histogram (i + 1)

/-- Black-side entropy `hB[t]` (AutoThreshold.cpp:824-835), with `epsilon = 0`. -/
def entHB (logf : ℚ → ℚ) (histogram : ℕ → ℕ) (t : ℕ) : ℚ :=
  if 0 < entPT histogram t then
    -(∑ i in Finset.range (t + 1),
      if 0 < entNh histogram i then
        entNh histogram i / entPT histogram t * logf (entNh histogram i / entPT histogram t)
      else 0)
  else 0

/-- White-side entropy `hW[t]` (AutoThreshold.cpp:837-849), with `epsilon = 0`. -/
def entHW (logf : ℚ → ℚ) (histogram : ℕ → ℕ) (t : ℕ) : ℚ :=
  if 0 < 1 - entPT histogram t then
    -(∑ i in Finset.Ico (t + 1) 256,
      if 0 < entNh histogram i then
        entNh histogram i / (1 - entPT histogram t)
          * logf (entNh histogram i / (1 - entPT histogram t))
      else 0)
  else 0

/-- `dj = hB[t] + hW[t]` (AutoThreshold.cpp:856). -/
def entDj (logf : ℚ → ℚ) (histogram : ℕ → ℕ) (t : ℕ) : ℚ :=
  entHB logf histogram t + entHW logf histogram t

/-- `AutoThreshold::entropySplit` (AutoThreshold.cpp:785-863): return 0 if the
histogram is empty, else the first `t` maximizing `hB[t] + hW[t]`
(scan starts at `tMax = 0`, strict improvement only). -/
def entropySplit (logf : ℚ → ℚ) (histogram : ℕ → ℕ) : ℕ :=
  if entSum histogram = 0 then 0
  else
    ((List.range' 1 255).foldl
      (fun acc t =>
        if acc.2 < entDj logf histogram t then (t, entDj logf histogram t) else acc)
      (0, entDj logf histogram 0)).1

/-! ### Otsu estimator (`AutoThreshold::otsu`, AutoThreshold.cpp:866-905) -/

/-- `prob[i] = hist[i] / (Width*Height)` (AutoThreshold.cpp:875-877). -/
def otsuProb (h : ℕ → ℕ) (WH i : ℕ) : ℚ :=
  (h i : ℚ) / (WH : ℚ)

/-- Running class weight `omega` (AutoThreshold.cpp:880-883). -/
def otsuOmega (h : ℕ → ℕ) (WH : ℕ) : ℕ → ℚ
  | 0 => otsuProb h WH 0
  | i + 1 => otsuOmega h WH i + otsuProb h WH (i + 1)

/-- Running first moment `myu` (AutoThreshold.cpp:881-884). -/
def otsuMyu (h : ℕ → ℕ) (WH : ℕ) : ℕ → ℚ
  | 0 => 0
  | i + 1 => otsuMyu h WH i + (i + 1 : ℚ) * otsuProb h WH (i + 1)

/-- Inter-class variance `sigma[i]` (AutoThreshold.cpp:892-896): 0 whenever
`omega[i]` is 0 or 1. -/
def otsuSigma (h : ℕ → ℕ) (WH i : ℕ) : ℚ :=
  if otsuOmega h WH i ≠ 0 ∧ otsuOmega h WH i ≠ 1 then
    (otsuMyu h WH 255 * otsuOmega h WH i - otsuMyu h WH i) ^ 2
      / (otsuOmega h WH i * (1 - otsuOmega h WH i))
  else 0

/-- `AutoThreshold::otsu` (AutoThreshold.cpp:866-905): first `i` in 0..254
with maximal `sigma[i]` (scan starts at `threshold = 0`, `max_sigma = 0`,
strict improvement only; the loop runs `for (i = 0; i < 256-1; i++)`). -/
def otsu (h : ℕ → ℕ) (W H : ℕ) : ℕ :=
  ((List.range 255).foldl
    (fun acc i =>
      if acc.2 < otsuSigma h (W * H) i then (i, otsuSigma h (W * H) i) else acc)
    (0, 0)).1

/-- The histogram of `bwBuf`: 32768 pixels at gray 0 and 32768 at gray 255. -/
def bwHist : ℕ → ℕ :=
  fun k => if k = 0 then 32768 else if k = 255 then 32768 else 0

/-! ### Threshold blending policy (`ProcessOpenGL`, AutoThreshold.cpp:356-364) -/

/-- The two sequential clamping ifs of AutoThreshold.cpp:363-364. -/
def clampThreshold (v : ℚ) : ℚ :=
  let t1 := if v < 0 then 0 else v
  if 1 < t1 then 1 else t1

/-- The per-frame effective threshold (AutoThreshold.cpp:358-364): in
automatic mode `m_AutoThreshold * m_UserThreshold * 2.0`, otherwise
`m_UserThreshold`, then clamped to [0,1]. -/
def processThreshold (auto : Bool) (autoT userT : ℚ) : ℚ :=
  clampThreshold (if auto then autoT * userT * 2 else userT)

/-! ### Statelessness of the estimators (claim C8)

The three member functions `gradient`, `entropySplit` and `otsu` read and
write no member field of the `AutoThreshold` object (verified against
AutoThreshold.cpp:665-750, 785-863, 866-905: their bodies use only locals
and their arguments).  The calls are therefore modelled as state-passing
functions that return the object state unchanged, with a result depending
only on the arguments. -/

/-- The mutable members of the `AutoThreshold` object that persist across
frames (AutoThreshold.h:41-47,79), as far as the estimators could see them. -/
structure PluginState where
  mThreshold : ℚ
  mUserThreshold : ℚ
  mAutoThreshold : ℚ
  mAuto : Bool
  mHistogram : ℕ → ℕ

/-- A call to the member function `gradient` on an object in state `s`. -/
def gradientCall (s : PluginState) (buf : ℕ → ℕ) (W H : ℕ) : ℚ × PluginState :=
  (gradient buf W H, s)

/-- A call to the member function `entropySplit` on an object in state `s`. -/
def entropySplitCall (s : PluginState) (logf : ℚ → ℚ) (h : ℕ → ℕ) : ℕ × PluginState :=
  (entropySplit logf h, s)

/-- A call to the member function `otsu` on an object in state `s`. -/
def otsuCall (s : PluginState) (h : ℕ → ℕ) (W H : ℕ) : ℕ × PluginState :=
  (otsu h W H, s)

/-! ## Helper lemmas -/

/-- A fold accumulating two running sums equals the pair of list sums. -/
lemma foldl_pair_sum {α : Type*} (f g : α → ℕ) (l : List α) :
    ∀ a b : ℕ,
      l.foldl (fun acc x => (acc.1 + f x, acc.2 + g x)) (a, b)
        = (a + (l.map f).sum, b + (l.map g).sum) := by
  induction l with
  | nil => intro a b; simp
  | cons x t ih =>
      intro a b
      rw [List.foldl_cons, ih]
      exact Prod.ext (by simp [add_assoc]) (by simp [add_assoc])

/-- Sum of a constant list. -/
lemma sum_map_const {α : Type*} (l : List α) (c : ℕ) :
    (l.map (fun _ => c)).sum = l.length * c := by
  induction l with
  | nil => simp
  | cons x t ih => simp [ih]; ring

/-- Pull a constant factor out of a list sum. -/
lemma sum_map_mul {α : Type*} (l : List α) (f : α → ℕ) (c : ℕ) :
    (l.map (fun x => c * f x)).sum = c * (l.map f).sum := by
  induction l with
  | nil => simp
  | cons x t ih => simp [ih]; ring

/-- Membership in the sampling index list. -/
lemma mem_sampleIdx {i limit : ℕ} :
    i ∈ sampleIdx limit ↔ 4 ≤ i ∧ i % 4 = 0 ∧ i + 4 < limit := by
  simp only [sampleIdx, List.mem_filter, List.mem_range, decide_eq_true_eq]
  constructor
  · exact fun h => h.2
  · exact fun h => ⟨by omega, h⟩

/-- The sampling loops run zero iterations when the dimension is at most 8. -/
lemma sampleIdx_nil {limit : ℕ} (h : limit ≤ 8) : sampleIdx limit = [] := by
  rw [sampleIdx, List.filter_eq_nil_iff]
  intro a _
  simp only [decide_eq_true_eq]
  omega

/-- The two accumulators of `gradient`, rewritten as list sums. -/
lemma gradientSums_eq (buf : ℕ → ℕ) (W H : ℕ) :
    gradientSums buf W H =
      (((sampleIdx H).map (fun i => ((sampleIdx W).map (fun j => gradExy buf W i j)).sum)).sum,
       ((sampleIdx H).map
         (fun i => ((sampleIdx W).map
           (fun j => gradExy buf W i j * gradMid buf W i j)).sum)).sum) := by
  unfold gradientSums
  have hfun : (fun (acc : ℕ × ℕ) i =>
      (sampleIdx W).foldl
        (fun acc2 j =>
          (acc2.1 + gradExy buf W i j, acc2.2 + gradExy buf W i j * gradMid buf W i j))
        acc)
      = fun (acc : ℕ × ℕ) i =>
        (acc.1 + ((sampleIdx W).map (fun j => gradExy buf W i j)).sum,
         acc.2 + ((sampleIdx W).map (fun j => gradExy buf W i j * gradMid buf W i j)).sum) := by
    funext acc i
    rcases acc with ⟨a, b⟩
    exact foldl_pair_sum _ _ _ a b
  rw [hfun, foldl_pair_sum]
  simp

/-- The sampled pixel's R+G+B sum, as 2D indexing. -/
lemma gradMid_eq (buf : ℕ → ℕ) (W i j : ℕ) :
    gradMid buf W i j = pixSum buf W j i := by
  unfold gradMid pixSum
  congr 1
  ring

/-- The pointer-walk edge magnitude equals the 2D-indexed one (one-pixel
neighbours, bottom folded into top) for interior samples. -/
lemma gradExy_eq_amend (buf : ℕ → ℕ) (W i j : ℕ) (hi : 1 ≤ i) (hj : 1 ≤ j) :
    gradExy buf W i j = exyAmend buf W i j := by
  obtain ⟨i', rfl⟩ : ∃ i', i = i' + 1 := ⟨i - 1, by omega⟩
  obtain ⟨j', rfl⟩ : ∃ j', j = j' + 1 := ⟨j - 1, by omega⟩
  have A1 : (i' + 1) * (W * 4) + (j' + 1) * 4 - 4 = ((i' + 1) * W + j') * 4 := by
    have h : (i' + 1) * (W * 4) + (j' + 1) * 4 = ((i' + 1) * W + j') * 4 + 4 := by ring
    rw [h, Nat.add_sub_cancel]
  have A2 : (i' + 1) * (W * 4) + (j' + 1) * 4 + 4 = ((i' + 1) * W + (j' + 1 + 1)) * 4 := by ring
  have A3 : (i' + 1) * (W * 4) + (j' + 1) * 4 - W * 4 = (i' * W + (j' + 1)) * 4 := by
    have h : (i' + 1) * (W * 4) + (j' + 1) * 4 = (i' * W + (j' + 1)) * 4 + W * 4 := by ring
    rw [h, Nat.add_sub_cancel]
  have A4 : (i' + 1) * (W * 4) + (j' + 1) * 4 + W * 4 = ((i' + 1 + 1) * W + (j' + 1)) * 4 := by
    ring
  simp only [gradExy, exyAmend, pixSum, Nat.add_sub_cancel]
  rw [A1, A2, A3, A4]

/-- What `gradient` actually returns, as a closed formula over the sampled
pixels: the bottom-folded one-pixel-neighbour edge sums, the `+1` guard, the
truncating integer division, and the final /(3*256). -/
lemma gradient_eq_amend (buf : ℕ → ℕ) (W H : ℕ) :
    gradient buf W H =
      ((sumExyMidAmend buf W H / (sumExyAmend buf W H + 1) : ℕ) : ℚ) / (3 * 256) := by
  have hsums : gradientSums buf W H = (sumExyAmend buf W H, sumExyMidAmend buf W H) := by
    rw [gradientSums_eq]
    unfold sumExyAmend sumExyMidAmend
    refine Prod.ext ?_ ?_
    · refine congrArg List.sum (List.map_congr_left ?_)
      intro i hi
      refine congrArg List.sum (List.map_congr_left ?_)
      intro j hj
      have hi4 := (mem_sampleIdx.mp hi).1
      have hj4 := (mem_sampleIdx.mp hj).1
      rw [gradExy_eq_amend buf W i j (by omega) (by omega)]
    · refine congrArg List.sum (List.map_congr_left ?_)
      intro i hi
      refine congrArg List.sum (List.map_congr_left ?_)
      intro j hj
      have hi4 := (mem_sampleIdx.mp hi).1
      have hj4 := (mem_sampleIdx.mp hj).1
      rw [gradExy_eq_amend buf W i j (by omega) (by omega), gradMid_eq]
  unfold gradient gradientT
  rw [hsums]

/-! ## Uniform-buffer lemmas (claim C6) -/

/-- On a uniform buffer every pixel-aligned three-byte sum is `3*g`. -/
lemma pix3_uniform (g o : ℕ) (h4 : o % 4 = 0) : pix3 (uniformBuf g) o = 3 * g := by
  unfold pix3 uniformBuf
  have h1 : ¬o % 4 = 3 := by omega
  have h2 : ¬(o + 1) % 4 = 3 := by omega
  have h3 : ¬(o + 2) % 4 = 3 := by omega
  rw [if_neg h1, if_neg h2, if_neg h3]
  ring

/-- 2D-indexed R+G+B sum on a uniform buffer. -/
lemma pixSum_uniform (g W x y : ℕ) : pixSum (uniformBuf g) W x y = 3 * g := by
  unfold pixSum
  exact pix3_uniform g _ (Nat.mul_mod_left _ 4)

/-- On a uniform buffer the horizontal difference vanishes but the folded
top+bottom term equals `6*g`, so the per-sample edge magnitude is `6*g`. -/
lemma exyAmend_uniform (g W i j : ℕ) : exyAmend (uniformBuf g) W i j = 6 * g := by
  simp only [exyAmend, pixSum_uniform]
  have h1 : ((3 * g : ℕ) : ℤ) - ((3 * g : ℕ) : ℤ) = 0 := sub_self _
  have h2 : ((3 * g + 3 * g : ℕ) : ℤ) - ((0 : ℕ) : ℤ) = ((6 * g : ℕ) : ℤ) := by
    push_cast
    ring
  rw [h1, h2]
  simp [Int.natAbs_mul]

/-- Closed form of `gradient` on a uniform buffer: with `N` samples the sums
are `6*g*N` and `18*g²*N`, so the quirky vertical term drives the estimate to
about `3*g/768 = g/256`, not 0. -/
lemma gradient_uniform (g W H : ℕ) :
    gradient (uniformBuf g) W H =
      ((18 * g ^ 2 * ((sampleIdx H).length * (sampleIdx W).length)
        / (6 * g * ((sampleIdx H).length * (sampleIdx W).length) + 1) : ℕ) : ℚ) / (3 * 256) := by
  rw [gradient_eq_amend]
  have hs : sumExyAmend (uniformBuf g) W H
      = 6 * g * ((sampleIdx H).length * (sampleIdx W).length) := by
    unfold sumExyAmend
    simp only [exyAmend_uniform, sum_map_const]
    ring
  have hm : sumExyMidAmend (uniformBuf g) W H
      = 18 * g ^ 2 * ((sampleIdx H).length * (sampleIdx W).length) := by
    unfold sumExyMidAmend
    simp only [exyAmend_uniform, pixSum_uniform, sum_map_const]
    ring
  rw [hs, hm]

/-! ## Claim C1 -/

/-- Claim C1 (corrected): for every buffer, `gradient` samples every 4th row
and column from offset 4 stopping 4 short of each edge and accumulates
`sum_exy`/`sum_exy_fxy`, but the per-sample edge magnitude uses neighbours
ONE pixel (4 bytes) away with the bottom R+G+B sum folded into `top` (and
`bot = 0`), and the final quotient is truncated to an integer before the
division by 3*256.  `gradient buf W H = ⌊sum_exy_fxy/(sum_exy+1)⌋ / 768`. -/
theorem claim_C1 (buf : ℕ → ℕ) (W H : ℕ) :
    gradient buf W H =
      ((sumExyMidAmend buf W H / (sumExyAmend buf W H + 1) : ℕ) : ℚ) / (3 * 256) :=
  gradient_eq_amend buf W H

/-- Claim C1 counterexample: on the 9×9 buffer `cexBuf` (single sample at
row 4, col 4; bright pixels one row above and below it), the code returns
`299/768` while the claim's formula (4-pixel-distant neighbours, clean
`|top-bot|`, exact division) gives 0. -/
theorem claim_C1_counterexample :
    gradient cexBuf 9 9 ≠ gradientSpecC1 cexBuf 9 9 := by
  have h1 : gradientT cexBuf 9 9 = 299 := by decide
  have h2 : sumExySpecC1 cexBuf 9 9 = 0 := by decide
  have h3 : sumExyMidSpecC1 cexBuf 9 9 = 0 := by decide
  unfold gradient gradientSpecC1
  rw [h1, h2, h3]
  norm_num

/-! ## Claim C2 -/

/-- The two sequential ifs of AutoThreshold.cpp:363-364 implement
`clamp(·, 0, 1)`. -/
lemma clampThreshold_eq (v : ℚ) : clampThreshold v = min 1 (max 0 v) := by
  unfold clampThreshold
  rcases lt_or_le v 0 with h | h
  · rw [if_pos h, if_neg (by norm_num), max_eq_left h.le, min_eq_right (by norm_num)]
  · rw [if_neg (not_lt.mpr h), max_eq_right h]
    rcases lt_or_le 1 v with h2 | h2
    · rw [if_pos h2, min_eq_left h2.le]
    · rw [if_neg (not_lt.mpr h2), min_eq_right h2]

/-- Claim C2 (confirmed): with automatic mode on, the effective threshold is
`clamp(raw*user*2, 0, 1)`; with it off, `clamp(user, 0, 1)`; either way the
result lies in [0,1]. -/
theorem claim_C2 (auto : Bool) (raw user : ℚ) :
    processThreshold auto raw user
        = (if auto then min 1 (max 0 (raw * user * 2)) else min 1 (max 0 user)) ∧
    0 ≤ processThreshold auto raw user ∧ processThreshold auto raw user ≤ 1 := by
  have he : processThreshold auto raw user
      = (if auto then min 1 (max 0 (raw * user * 2)) else min 1 (max 0 user)) := by
    unfold processThreshold
    cases auto
    · simp [clampThreshold_eq]
    · simp [clampThreshold_eq]
  refine ⟨he, ?_, ?_⟩
  · rw [he]
    cases auto
    · simpa using le_min (by norm_num) (le_max_left 0 user)
    · simpa using le_min (by norm_num) (le_max_left 0 (raw * user * 2))
  · rw [he]
    cases auto
    · simpa using min_le_left 1 (max 0 user)
    · simpa using min_le_left 1 (max 0 (raw * user * 2))

/-! ## Claim C4 -/

/-- Claim C4 (confirmed): if the 256 bin counts sum to 0, `entropySplit`
returns 0 immediately; the result does not depend on the logarithm at all
(it holds for EVERY `logf`), so no normalization or entropy computation is
reached. -/
theorem claim_C4 (logf : ℚ → ℚ) (histogram : ℕ → ℕ)
    (h : ∑ i in Finset.range 256, histogram i = 0) :
    entropySplit logf histogram = 0 := by
  have hq : entSum histogram = 0 := by
    unfold entSum
    rw [← Nat.cast_sum, h]
    norm_num
  unfold entropySplit
  rw [if_pos hq]

/-- Witness for claim C4 at the all-zero histogram. -/
theorem claim_C4_witness :
    (∑ i in Finset.range 256, (fun _ => 0 : ℕ → ℕ) i = 0) ∧
    entropySplit id (fun _ => 0) = 0 :=
  ⟨by simp, claim_C4 id (fun _ => 0) (by simp)⟩

/-! ## Claim C6 -/

/-- Claim C6 (corrected): on a uniform-gray buffer the horizontal edge terms
vanish but the folded top+bottom term is `6*g`, so the estimate is
`⌊18g²N/(6gN+1)⌋/768 ≈ 3g/768 = g/256`, NOT `g/(3*256)` and not close to 0;
for the all-mid-gray 64×64 buffer it is `383/768 ≈ 0.4987`. -/
theorem claim_C6 :
    (∀ g W H : ℕ, gradient (uniformBuf g) W H =
      ((18 * g ^ 2 * ((sampleIdx H).length * (sampleIdx W).length)
        / (6 * g * ((sampleIdx H).length * (sampleIdx W).length) + 1) : ℕ) : ℚ) / (3 * 256)) ∧
    gradient (uniformBuf 128) 64 64 = 383 / 768 := by
  refine ⟨gradient_uniform, ?_⟩
  rw [gradient_uniform]
  have hl : (sampleIdx 64).length = 14 := by decide
  rw [hl]
  norm_num

/-- Claim C6 counterexample: on the all-mid-gray 64×64 buffer the per-sample
edge term is 768 ≠ 0, and the returned estimate 383/768 is more than 1/4 away
from the claimed `128/(3*256)` and more than 1/4 away from 0. -/
theorem claim_C6_counterexample :
    exyAmend (uniformBuf 128) 64 4 4 ≠ 0 ∧
    gradient (uniformBuf 128) 64 64 = 383 / 768 ∧
    1 / 4 < |gradient (uniformBuf 128) 64 64 - 128 / (3 * 256)| ∧
    1 / 4 < gradient (uniformBuf 128) 64 64 := by
  have hv : gradient (uniformBuf 128) 64 64 = 383 / 768 := by
    rw [gradient_uniform]
    have hl : (sampleIdx 64).length = 14 := by decide
    rw [hl]
    norm_num
  refine ⟨?_, hv, ?_, ?_⟩
  · rw [exyAmend_uniform]
    norm_num
  · have hd : (383 : ℚ) / 768 - 128 / (3 * 256) = 85 / 256 := by norm_num
    rw [hv, hd, abs_of_pos (show (0 : ℚ) < 85 / 256 by norm_num)]
    norm_num
  · rw [hv]
    norm_num

/-! ## Claim C7 -/

/-- Claim C7 (confirmed): for every RGBA buffer (8-bit bytes) and positive
dimensions, the gradient estimate lies in [0,1].  In fact the truncated
quotient is at most 764, so the value is at most 764/768. -/
theorem claim_C7 (buf : ℕ → ℕ) (W H : ℕ) (hW : 0 < W) (hH : 0 < H)
    (hb : ∀ n, buf n ≤ 255) :
    0 ≤ gradient buf W H ∧ gradient buf W H ≤ 1 := by
  constructor
  · unfold gradient
    positivity
  · rw [gradient_eq_amend]
    have hmle : sumExyMidAmend buf W H ≤ 765 * sumExyAmend buf W H := by
      unfold sumExyMidAmend sumExyAmend
      refine le_trans (List.sum_le_sum ?_) (le_of_eq (sum_map_mul _ _ 765))
      intro i _
      rw [← sum_map_mul]
      refine List.sum_le_sum ?_
      intro j _
      have hp : pixSum buf W j i ≤ 765 := by
        unfold pixSum pix3
        have b0 := hb ((i * W + j) * 4)
        have b1 := hb ((i * W + j) * 4 + 1)
        have b2 := hb ((i * W + j) * 4 + 2)
        omega
      calc exyAmend buf W i j * pixSum buf W j i
          ≤ exyAmend buf W i j * 765 := Nat.mul_le_mul_left _ hp
        _ = 765 * exyAmend buf W i j := Nat.mul_comm _ _
    have hdiv : sumExyMidAmend buf W H / (sumExyAmend buf W H + 1) ≤ 764 := by
      have h1 : sumExyMidAmend buf W H / (sumExyAmend buf W H + 1)
          ≤ 765 * sumExyAmend buf W H / (sumExyAmend buf W H + 1) :=
        Nat.div_le_div_right hmle
      have h2 : 765 * sumExyAmend buf W H / (sumExyAmend buf W H + 1) < 765 := by
        rw [Nat.div_lt_iff_lt_mul (by omega)]
        omega
      omega
    have hc : ((sumExyMidAmend buf W H / (sumExyAmend buf W H + 1) : ℕ) : ℚ) ≤ 764 := by
      exact_mod_cast hdiv
    rw [div_le_one (by norm_num)]
    linarith

/-- Witness for claim C7 at a 1×1 all-zero buffer. -/
theorem claim_C7_witness :
    ((0 : ℕ) < 1 ∧ (0 : ℕ) < 1 ∧ ∀ n : ℕ, (fun _ => 0 : ℕ → ℕ) n ≤ 255) ∧
    (0 ≤ gradient (fun _ => 0) 1 1 ∧ gradient (fun _ => 0) 1 1 ≤ 1) :=
  ⟨⟨by norm_num, by norm_num, fun _ => Nat.zero_le 255⟩,
   claim_C7 (fun _ => 0) 1 1 (by norm_num) (by norm_num) (fun _ => Nat.zero_le 255)⟩

/-! ## Claim C8 -/

/-- Claim C8 (confirmed): the three estimators are deterministic and
stateless.  Modelled as member calls threading the object state: each call
leaves the state unchanged, the result depends only on the arguments, and a
second call on the same input returns the identical result. -/
theorem claim_C8 (s : PluginState) (buf h : ℕ → ℕ) (W H : ℕ) (logf : ℚ → ℚ) :
    gradientCall s buf W H = (gradient buf W H, s) ∧
    entropySplitCall s logf h = (entropySplit logf h, s) ∧
    otsuCall s h W H = (otsu h W H, s) ∧
    (gradientCall (gradientCall s buf W H).2 buf W H).1 = (gradientCall s buf W H).1 ∧
    (entropySplitCall (entropySplitCall s logf h).2 logf h).1
      = (entropySplitCall s logf h).1 ∧
    (otsuCall (otsuCall s h W H).2 h W H).1 = (otsuCall s h W H).1 :=
  ⟨rfl, rfl, rfl, rfl, rfl, rfl⟩

/-! ## Claim C9 -/

/-- The scan of `otsu` only ever stores indices from its candidate list. -/
lemma otsuFold_le (h : ℕ → ℕ) (WH : ℕ) (l : List ℕ) :
    ∀ acc : ℕ × ℚ, acc.1 ≤ 254 → (∀ i ∈ l, i ≤ 254) →
      ((l.foldl
        (fun acc i => if acc.2 < otsuSigma h WH i then (i, otsuSigma h WH i) else acc)
        acc).1) ≤ 254 := by
  induction l with
  | nil =>
      intro acc h1 _
      simpa using h1
  | cons x t ih =>
      intro acc h1 h2
      rw [List.foldl_cons]
      apply ih
      · by_cases hc : acc.2 < otsuSigma h WH x
        · rw [if_pos hc]
          exact h2 x (List.mem_cons_self x t)
        · rw [if_neg hc]
          exact h1
      · intro i hi
        exact h2 i (List.mem_cons_of_mem _ hi)

/-- Claim C9 (confirmed): `otsu` scans only candidate levels 0..254, so its
result is in [0,254] and level 255 is never returned. -/
theorem claim_C9 (h : ℕ → ℕ) (W H : ℕ) (hW : 0 < W) (hH : 0 < H) :
    otsu h W H ≤ 254 := by
  unfold otsu
  apply otsuFold_le
  · norm_num
  · intro i hi
    have := List.mem_range.mp hi
    omega

/-- Witness for claim C9 at a 1×1 frame with an all-zero histogram. -/
theorem claim_C9_witness :
    (0 : ℕ) < 1 ∧ otsu (fun _ => 0) 1 1 ≤ 254 :=
  ⟨by norm_num, claim_C9 (fun _ => 0) 1 1 (by norm_num) (by norm_num)⟩

/-! ## Claim C10 -/

/-- Claim C10 (confirmed): if either dimension is at most 8 the sampling
loops run zero iterations, both accumulators stay (0,0), and the estimate is
exactly 0. -/
theorem claim_C10 (buf : ℕ → ℕ) (W H : ℕ) (h : W ≤ 8 ∨ H ≤ 8) :
    gradient buf W H = 0 ∧ gradientSums buf W H = (0, 0) := by
  have hz : gradientSums buf W H = (0, 0) := by
    rw [gradientSums_eq]
    rcases h with hw | hh
    · refine Prod.ext ?_ ?_ <;>
        · simp only [sampleIdx_nil hw, List.map_nil, List.sum_nil]
          rw [sum_map_const]
          simp
    · refine Prod.ext ?_ ?_ <;>
        · simp only [sampleIdx_nil hh, List.map_nil, List.sum_nil]
  refine ⟨?_, hz⟩
  unfold gradient gradientT
  rw [hz]
  norm_num

/-- Witness for claim C10 at a 1×1 all-zero buffer. -/
theorem claim_C10_witness :
    ((1 : ℕ) ≤ 8 ∨ (1 : ℕ) ≤ 8) ∧
    (gradient (fun _ => 0) 1 1 = 0 ∧ gradientSums (fun _ => 0) 1 1 = (0, 0)) :=
  ⟨Or.inl (by norm_num), claim_C10 (fun _ => 0) 1 1 (Or.inl (by norm_num))⟩

/-! ## Histogram characterization (claims C3, C5) -/

/-- Folding `bump` over a pixel list: each 16-bit bin ends at its true count
taken modulo 65536 (interleaved wrapping equals one final reduction). -/
lemma bumpFold {α : Type*} (f : α → ℕ) (l : List α) :
    ∀ (h : ℕ → ℕ) (k : ℕ), h k < 65536 →
      (l.foldl (fun h2 a => bump h2 (f a)) h) k
        = (h k + l.countP (fun a => decide (f a = k))) % 65536 := by
  induction l with
  | nil =>
      intro h k hk
      simp [Nat.mod_eq_of_lt hk]
  | cons a t ih =>
      intro h k hk
      rw [List.foldl_cons, List.countP_cons]
      by_cases hak : f a = k
      · have hbk : bump h (f a) k = (h k + 1) % 65536 := by
          unfold bump
          rw [if_pos hak.symm]
        rw [ih (bump h (f a)) k (by rw [hbk]; exact Nat.mod_lt _ (by norm_num))]
        rw [hbk, Nat.mod_add_mod, decide_eq_true hak]
        simp only [if_true]
        congr 1
        omega
      · have hbk : bump h (f a) k = h k := by
          unfold bump
          rw [if_neg (fun hh => hak hh.symm)]
        rw [ih (bump h (f a)) k (by rw [hbk]; exact hk)]
        rw [hbk, decide_eq_false hak]
        simp

/-- The outer row loop of `histo`: each bin ends at the sum of its per-row
counts, modulo 65536. -/
lemma histoFold (buf : ℕ → ℕ) (W : ℕ) (rs : List ℕ) :
    ∀ (h : ℕ → ℕ) (k : ℕ), h k < 65536 →
      (rs.foldl
        (fun h i => (List.range W).foldl (fun h2 j => bump h2 (grayOf buf W i j)) h) h) k
        = (h k + (rs.map (fun i => rowCount buf W i k)).sum) % 65536 := by
  induction rs with
  | nil =>
      intro h k hk
      simp [Nat.mod_eq_of_lt hk]
  | cons r t ih =>
      intro h k hk
      rw [List.foldl_cons]
      have hrow := bumpFold (grayOf buf W r) (List.range W) h k hk
      rw [ih _ k (by rw [hrow]; exact Nat.mod_lt _ (by norm_num))]
      rw [hrow, Nat.mod_add_mod, List.map_cons, List.sum_cons]
      congr 1
      unfold rowCount
      omega

/-- `histo` computes the true gray-level counts modulo 65536 (the
`unsigned short` counters of AutoThreshold.h:79 wrap). -/
lemma histo_eq (buf : ℕ → ℕ) (W H k : ℕ) :
    histo buf W H k = trueCount buf W H k % 65536 := by
  unfold histo trueCount
  have h := histoFold buf W (List.range H) (fun _ => 0) k (by norm_num)
  simpa using h

/-- Bridge from `List.countP` over a range to an indicator `Finset` sum. -/
lemma countP_range_sum (p : ℕ → Prop) [DecidablePred p] (n : ℕ) :
    (List.range n).countP (fun j => decide (p j))
      = ∑ j in Finset.range n, if p j then 1 else 0 := by
  induction n with
  | zero => simp
  | succ n ih =>
      rw [List.range_succ, List.countP_append, Finset.sum_range_succ, ih]
      simp [List.countP_cons]

/-- `rowCount` as an indicator sum. -/
lemma rowCount_eq (buf : ℕ → ℕ) (W i k : ℕ) :
    rowCount buf W i k = ∑ j in Finset.range W, if grayOf buf W i j = k then 1 else 0 := by
  unfold rowCount
  exact countP_range_sum (fun j => grayOf buf W i j = k) W

/-- Every pixel of a row lands in exactly one of the 256 bins (gray levels
are at most 255 for 8-bit bytes), so the row's counts total `W`. -/
lemma rowCount_total (buf : ℕ → ℕ) (W i : ℕ) (hb : ∀ n, buf n ≤ 255) :
    ∑ k in Finset.range 256, rowCount buf W i k = W := by
  simp only [rowCount_eq]
  rw [Finset.sum_comm]
  have hg : ∀ j, grayOf buf W i j ≤ 255 := by
    intro j
    unfold grayOf pix3
    have b0 := hb ((i * W + j) * 4)
    have b1 := hb ((i * W + j) * 4 + 1)
    have b2 := hb ((i * W + j) * 4 + 2)
    omega
  calc ∑ j in Finset.range W, ∑ k in Finset.range 256, (if grayOf buf W i j = k then 1 else 0)
      = ∑ _j in Finset.range W, 1 := by
        refine Finset.sum_congr rfl ?_
        intro j _
        rw [Finset.sum_ite_eq, if_pos (Finset.mem_range.mpr (by have := hg j; omega))]
    _ = W := by simp

/-- Exchange a `Finset` sum with a list-map sum. -/
lemma sum_finset_sum_list {α : Type*} (rs : List α) (f : α → ℕ → ℕ) (s : Finset ℕ) :
    ∑ k in s, (rs.map (fun i => f i k)).sum = (rs.map (fun i => ∑ k in s, f i k)).sum := by
  induction rs with
  | nil => simp
  | cons r t ih => simp [Finset.sum_add_distrib, ih]

/-! ## Claim C3 -/

/-- Claim C3 (amended, proved): for 8-bit buffers with fewer than 2^16
pixels no 16-bit counter can wrap, and the histogram counts sum to exactly
`W*H`. -/
theorem claim_C3 (buf : ℕ → ℕ) (W H : ℕ) (hb : ∀ n, buf n ≤ 255)
    (hsz : W * H < 65536) :
    ∑ k in Finset.range 256, histo buf W H k = W * H := by
  have htc : ∀ k, trueCount buf W H k ≤ W * H := by
    intro k
    unfold trueCount
    calc ((List.range H).map (fun i => rowCount buf W i k)).sum
        ≤ ((List.range H).map (fun _ => W)).sum := by
          apply List.sum_le_sum
          intro i _
          unfold rowCount
          exact le_trans (List.countP_le_length _) (le_of_eq (List.length_range W))
      _ = H * W := by rw [sum_map_const, List.length_range]
      _ ≤ W * H := le_of_eq (Nat.mul_comm H W)
  have hmod : ∀ k, histo buf W H k = trueCount buf W H k := by
    intro k
    rw [histo_eq]
    exact Nat.mod_eq_of_lt (lt_of_le_of_lt (htc k) hsz)
  simp only [hmod]
  unfold trueCount
  rw [sum_finset_sum_list]
  have hrow : (List.range H).map (fun i => ∑ k in Finset.range 256, rowCount buf W i k)
      = (List.range H).map (fun _ => W) :=
    List.map_congr_left (fun i _ => rowCount_total buf W i hb)
  rw [hrow, sum_map_const, List.length_range, Nat.mul_comm]

/-- Witness for claim C3 at a 1×1 all-zero buffer. -/
theorem claim_C3_witness :
    ((∀ n : ℕ, (fun _ => 0 : ℕ → ℕ) n ≤ 255) ∧ 1 * 1 < 65536) ∧
    ∑ k in Finset.range 256, histo (fun _ => 0) 1 1 k = 1 * 1 :=
  ⟨⟨fun _ => Nat.zero_le 255, by norm_num⟩,
   claim_C3 (fun _ => 0) 1 1 (fun _ => Nat.zero_le 255) (by norm_num)⟩

/-- All-black pixels all have gray level 0. -/
lemma grayOf_uniform0 (W i j : ℕ) : grayOf (uniformBuf 0) W i j = 0 := by
  unfold grayOf
  rw [pix3_uniform 0 _ (Nat.mul_mod_left _ 4)]

/-- Claim C3 counterexample: on a 256×256 all-black buffer the single active
16-bit counter wraps (65536 mod 2^16 = 0), so the counts sum to 0, not to
`width*height = 65536`. -/
theorem claim_C3_counterexample :
    (∑ k in Finset.range 256, histo (uniformBuf 0) 256 256 k) ≠ 256 * 256 := by
  have htc : ∀ k, trueCount (uniformBuf 0) 256 256 k = if k = 0 then 65536 else 0 := by
    intro k
    unfold trueCount rowCount
    by_cases hk : k = 0
    · subst hk
      have hcp : ∀ i : ℕ,
          (List.range 256).countP (fun j => decide (grayOf (uniformBuf 0) 256 i j = 0)) = 256 := by
        intro i
        rw [List.countP_eq_length.mpr, List.length_range]
        intro j _
        simp [grayOf_uniform0]
      have hmap : (List.range 256).map
            (fun i => (List.range 256).countP (fun j => decide (grayOf (uniformBuf 0) 256 i j = 0)))
          = (List.range 256).map (fun _ => 256) :=
        List.map_congr_left (fun i _ => hcp i)
      rw [hmap, sum_map_const, List.length_range, if_pos rfl]
    · rw [if_neg hk]
      have hcp : ∀ i : ℕ,
          (List.range 256).countP (fun j => decide (grayOf (uniformBuf 0) 256 i j = k)) = 0 := by
        intro i
        rw [List.countP_eq_zero]
        intro j _
        simp only [grayOf_uniform0, decide_eq_true_eq]
        omega
      have hmap : (List.range 256).map
            (fun i => (List.range 256).countP (fun j => decide (grayOf (uniformBuf 0) 256 i j = k)))
          = (List.range 256).map (fun _ => 0) :=
        List.map_congr_left (fun i _ => hcp i)
      rw [hmap, sum_map_const]
      simp
  have hh : ∀ k, histo (uniformBuf 0) 256 256 k = 0 := by
    intro k
    rw [histo_eq, htc]
    by_cases hk : k = 0
    · rw [if_pos hk]
    · rw [if_neg hk]
  simp only [hh]
  simp

/-! ## Claim C5 -/

/-- Gray level of a `bwBuf` pixel: 0 on the left half, 255 on the right. -/
lemma grayOf_bw (i j : ℕ) (hj : j < 256) :
    grayOf bwBuf 256 i j = if j < 128 then 0 else 255 := by
  unfold grayOf pix3 bwBuf
  set p := i * 256 + j with hp
  have hpj : p % 256 = j := by omega
  have h1 : ¬(p * 4) % 4 = 3 := by omega
  have h2 : ¬(p * 4 + 1) % 4 = 3 := by omega
  have h3 : ¬(p * 4 + 2) % 4 = 3 := by omega
  have d1 : p * 4 / 4 = p := by omega
  have d2 : (p * 4 + 1) / 4 = p := by omega
  have d3 : (p * 4 + 2) / 4 = p := by omega
  rw [if_neg h1, if_neg h2, if_neg h3, d1, d2, d3, hpj]
  by_cases hjj : j < 128
  · simp [hjj]
  · simp [hjj]

set_option maxRecDepth 8192 in
/-- Per-row bin counts of `bwBuf`: 128 black and 128 white pixels per row. -/
lemma rowCount_bw (i k : ℕ) :
    rowCount bwBuf 256 i k = if k = 0 then 128 else if k = 255 then 128 else 0 := by
  unfold rowCount
  have hcongr : (List.range 256).countP (fun j => decide (grayOf bwBuf 256 i j = k))
      = (List.range 256).countP (fun j => decide ((if j < 128 then 0 else 255) = k)) := by
    apply List.countP_congr
    intro j hj
    have hj' := List.mem_range.mp hj
    simp [grayOf_bw i j hj']
  rw [hcongr]
  by_cases hk0 : k = 0
  · subst hk0
    rw [if_pos rfl]
    decide
  · rw [if_neg hk0]
    by_cases hk255 : k = 255
    · subst hk255
      rw [if_pos rfl]
      decide
    · rw [if_neg hk255, List.countP_eq_zero]
      intro j _
      simp only [decide_eq_true_eq]
      split_ifs <;> omega

/-- The histogram `histo` builds from `bwBuf` is exactly `bwHist`
(32768 pixels at gray 0 and 32768 at gray 255; no counter wraps). -/
lemma histo_bw_eq : histo bwBuf 256 256 = bwHist := by
  funext k
  rw [histo_eq]
  have htc : trueCount bwBuf 256 256 k
      = if k = 0 then 32768 else if k = 255 then 32768 else 0 := by
    unfold trueCount
    have hmap : (List.range 256).map (fun i => rowCount bwBuf 256 i k)
        = (List.range 256).map (fun _ => if k = 0 then 128 else if k = 255 then 128 else 0) :=
      List.map_congr_left (fun i _ => rowCount_bw i k)
    rw [hmap, sum_map_const, List.length_range]
    split_ifs <;> norm_num
  rw [htc]
  unfold bwHist
  split_ifs <;> norm_num

/-- Probability mass of `bwHist` at level 0. -/
lemma otsuProb_bw0 : otsuProb bwHist 65536 0 = 1 / 2 := by
  unfold otsuProb bwHist
  norm_num

/-- Probability mass of `bwHist` at level 255. -/
lemma otsuProb_bw255 : otsuProb bwHist 65536 255 = 1 / 2 := by
  unfold otsuProb bwHist
  norm_num

/-- Probability mass of `bwHist` vanishes at interior levels. -/
lemma otsuProb_bw_mid (i : ℕ) (h1 : 1 ≤ i) (h2 : i ≤ 254) :
    otsuProb bwHist 65536 i = 0 := by
  unfold otsuProb bwHist
  rw [if_neg (by omega), if_neg (by omega)]
  norm_num

/-- Running class weight on `bwHist` is 1/2 throughout 0..254. -/
lemma otsuOmega_bw : ∀ i, i ≤ 254 → otsuOmega bwHist 65536 i = 1 / 2 := by
  intro i
  induction i with
  | zero =>
      intro _
      rw [show otsuOmega bwHist 65536 0 = otsuProb bwHist 65536 0 from rfl, otsuProb_bw0]
  | succ n ih =>
      intro h
      rw [show otsuOmega bwHist 65536 (n + 1)
            = otsuOmega bwHist 65536 n + otsuProb bwHist 65536 (n + 1) from rfl]
      rw [ih (by omega), otsuProb_bw_mid (n + 1) (by omega) (by omega)]
      ring

/-- Running first moment on `bwHist` is 0 throughout 0..254. -/
lemma otsuMyu_bw : ∀ i, i ≤ 254 → otsuMyu bwHist 65536 i = 0 := by
  intro i
  induction i with
  | zero =>
      intro _
      rfl
  | succ n ih =>
      intro h
      rw [show otsuMyu bwHist 65536 (n + 1)
            = otsuMyu bwHist 65536 n + ((n : ℚ) + 1) * otsuProb bwHist 65536 (n + 1) from rfl]
      rw [ih (by omega), otsuProb_bw_mid (n + 1) (by omega) (by omega)]
      ring

/-- Total first moment on `bwHist`. -/
lemma otsuMyu_bw255 : otsuMyu bwHist 65536 255 = 255 / 2 := by
  rw [show (255 : ℕ) = 254 + 1 from rfl]
  rw [show otsuMyu bwHist 65536 (254 + 1)
        = otsuMyu bwHist 65536 254 + ((254 : ℚ) + 1) * otsuProb bwHist 65536 (254 + 1) from rfl]
  rw [otsuMyu_bw 254 (by norm_num), show (254 : ℕ) + 1 = 255 from rfl, otsuProb_bw255]
  norm_num

/-- On `bwHist` every candidate split 0..254 has the SAME inter-class
variance 65025/4: the two spikes sit at 0 and 255 and every interior bin is
empty, so all splits separate identically. -/
lemma otsuSigma_bw (i : ℕ) (hi : i ≤ 254) : otsuSigma bwHist 65536 i = 65025 / 4 := by
  unfold otsuSigma
  rw [otsuOmega_bw i hi, otsuMyu_bw i hi, otsuMyu_bw255]
  rw [if_pos (by norm_num)]
  norm_num

/-- The scan never moves off an accumulator that already attains the
constant variance (strict-improvement tie-breaking). -/
lemma otsuFold_const (h : ℕ → ℕ) (WH : ℕ) (c : ℚ) (l : List ℕ) (acc : ℕ × ℚ)
    (hall : ∀ i ∈ l, otsuSigma h WH i = c) (hc : c ≤ acc.2) :
    l.foldl
      (fun acc i => if acc.2 < otsuSigma h WH i then (i, otsuSigma h WH i) else acc)
      acc = acc := by
  induction l with
  | nil => rfl
  | cons x t ih =>
      rw [List.foldl_cons]
      rw [if_neg (by rw [hall x (List.mem_cons_self x t)]; exact not_lt.mpr hc)]
      exact ih (fun i hi => hall i (List.mem_cons_of_mem _ hi))

/-- Otsu on the black/white histogram keeps the first tying split: 0. -/
lemma otsu_bw_zero : otsu bwHist 256 256 = 0 := by
  unfold otsu
  rw [show (256 : ℕ) * 256 = 65536 from by norm_num]
  rw [List.range_succ_eq_map]
  simp only [List.foldl_cons]
  rw [otsuSigma_bw 0 (by norm_num)]
  rw [if_pos (by norm_num)]
  have hall : ∀ i ∈ (List.range 254).map Nat.succ, otsuSigma bwHist 65536 i = 65025 / 4 := by
    intro i hi
    obtain ⟨j, hj, rfl⟩ := List.mem_map.mp hi
    have := List.mem_range.mp hj
    exact otsuSigma_bw (Nat.succ j) (by omega)
  rw [otsuFold_const bwHist 65536 (65025 / 4) _ _ hall (le_refl _)]

/-- Claim C5 (corrected): the 256×256 half-black/half-white buffer does give
the histogram with 32768 counts at levels 0 and 255, but `otsu` on it
returns 0, not 127 or 128: all candidate splits 0..254 tie at the maximal
inter-class variance and the scan keeps the first. -/
theorem claim_C5 :
    histo bwBuf 256 256 = bwHist ∧ otsu (histo bwBuf 256 256) 256 256 = 0 := by
  refine ⟨histo_bw_eq, ?_⟩
  rw [histo_bw_eq]
  exact otsu_bw_zero

/-- Claim C5 counterexample: the Otsu split on that buffer's histogram is
neither 127 nor 128 (it is 0). -/
theorem claim_C5_counterexample :
    otsu (histo bwBuf 256 256) 256 256 ≠ 127 ∧
    otsu (histo bwBuf 256 256) 256 256 ≠ 128 := by
  rw [histo_bw_eq, otsu_bw_zero]
  exact ⟨by norm_num, by norm_num⟩

end AutoThreshold
